import Mathlib

/-!
Verification of the i2c repository's response parser and preview assembly.

The source is TypeScript (`src/Home.tsx`, `src/unnamed/part_000`).  Text is
modelled as `List Char`.  Each JavaScript regular-expression operation used by
the source is embedded as an explicit scanning function; where a regex has been
reduced to substring searches, the accompanying comment records the
backtracking analysis that justifies the reduction, so that the function is
extensionally the JS behaviour on all inputs.
-/

namespace I2C

abbrev Str := List Char

/-- JavaScript `\s` (and `String.prototype.trim`'s character set):
tab, LF, VT, FF, CR, space, NBSP, OGHAM SPACE, U+2000..U+200A, LS, PS,
NNBSP, MMSP, IDEOGRAPHIC SPACE, BOM. -/
def jsWs (c : Char) : Bool :=
  let n := c.toNat
  n == 9 || n == 10 || n == 11 || n == 12 || n == 13 || n == 32 ||
  n == 160 || n == 5760 || (decide (8192 ≤ n) && decide (n ≤ 8202)) ||
  n == 8232 || n == 8233 || n == 8239 || n == 8287 || n == 12288 || n == 65279

/-- Left trim with the JS whitespace set. -/
def trimL (s : Str) : Str := s.dropWhile jsWs

/-- Right trim with the JS whitespace set. -/
def trimR (s : Str) : Str := (s.reverse.dropWhile jsWs).reverse

/-- JS `String.prototype.trim`. -/
def trimStr (s : Str) : Str := trimL (trimR s)

/-- Index of the first occurrence of `pat` as a contiguous substring of `s`
(`none` if there is none).  This is the primitive both the section regexes and
the lazy `[\s\S]*?` searches reduce to. -/
def findSub (pat : Str) : Str → Option Nat
  | [] => if pat = [] then some 0 else none
  | c :: rest =>
    if pat.isPrefixOf (c :: rest) then some 0
    else (findSub pat rest).map (· + 1)

/-- Whether `pat` occurs as a contiguous substring of `s`. -/
def hasSub (pat s : Str) : Bool := (findSub pat s).isSome

/-! ### Section markers (literal strings from the regexes in `parseResponse`,
`src/Home.tsx` lines 170-185). -/

def m41 : Str := "### 4.1. Header Block".toList
def m42 : Str := "### 4.2. Project Structure".toList
def m43 : Str := "### 4.3. Code Files".toList
def m43full : Str := "### 4.3. Code Files (Full & Unabridged)".toList
def m44 : Str := "### 4.4. Notes".toList

/-!
### Section extraction

`src/Home.tsx` evaluates, for markers `A`,`B`,
`text.match(/A\s*([\s\S]*?)\s*B/)` and then `.trim()`s capture 1.

Reduction to substring searches (valid because every marker starts with `#`,
which is neither a whitespace nor a word character, markers do not overlap
themselves or each other, and no marker occurrence can begin strictly inside
another marker occurrence):
the regex matches iff `A` occurs and `B` occurs after the end of the first
occurrence of `A` (a later `A`-occurrence cannot succeed when the first one
fails, since any `B` after a later `A` is also after the first).  The greedy
`\s*`s and the lazy capture make capture 1 the slice between the maximal
whitespace run after `A` and the whitespace run preceding the first following
`B`; after the source's additional `.trim()` the value is exactly
`trim(text[end of A .. start of first B after A])`. -/
def sectionBetween (a b text : Str) : Option Str :=
  match findSub a text with
  | none => none
  | some i =>
    let rest := text.drop (i + a.length)
    match findSub b rest with
    | none => none
    | some j => some (trimStr (rest.take j))

/-- `text.match(/A\s*([\s\S]*)/)` with capture 1 `.trim()`ed:
the trimmed text from the end of the first occurrence of `A`. -/
def sectionAfter (a text : Str) : Option Str :=
  (findSub a text).map (fun i => trimStr (text.drop (i + a.length)))

/-- The files-section slice:
`text.match(/### 4\.3\. Code Files \(Full & Unabridged\)\s*([\s\S]*?)(?=\s*### 4\.4\. Notes|$)/)`,
capture 1, not trimmed further by the source.  With the notes marker present
after the files marker the lazy capture ends where the whitespace run before
the first such marker begins, so (the leading `\s*` being greedy) the capture
is the trimmed slice between the two markers; with no notes marker only the
`$` lookahead alternative fires, giving the slice to the end of text with only
its leading whitespace consumed by `\s*`. -/
def filesRegion (text : Str) : Option Str :=
  match findSub m43full text with
  | none => none
  | some i =>
    let rest := text.drop (i + m43full.length)
    match findSub m44 rest with
    | none => some (trimL rest)
    | some j => some (trimStr (rest.take j))

/-! ### Fenced code block extraction -/

/-- JS `\w`. -/
def wordChar (c : Char) : Bool :=
  (decide ('a' ≤ c) && decide (c ≤ 'z')) ||
  (decide ('A' ≤ c) && decide (c ≤ 'Z')) ||
  (decide ('0' ≤ c) && decide (c ≤ '9')) || c == '_'

/-- The character class `[\w.\/\\-]` of the file-name capture. -/
def nameChar (c : Char) : Bool :=
  wordChar c || c == '.' || c == '/' || c == '\\' || c == '-'

def ticks : Str := "```".toList

/-- The closing delimiter `\n\x60\x60\x60` of a tagged block. -/
def closeFence : Str := "\n```".toList

/-- One parsed code file (`{lang, name, content}` objects of `parseResponse`). -/
structure CodeFile where
  name : Str
  lang : Str
  content : Str
deriving DecidableEq, Repr

/-- Alternatives for a greedy `X*` of a character class, in JS backtracking
order: longest first, down to the empty match. -/
def starCandidates (p : Char → Bool) (s : Str) : List (Str × Str) :=
  (List.range ((s.takeWhile p).length + 1)).reverse.map
    (fun k => (s.take k, s.drop k))

/-- Alternatives for the literal `:?`: with the colon first, then without. -/
def colonCandidates (s : Str) : List (Bool × Str) :=
  match s with
  | c :: rest => if c = ':' then [(true, rest), (false, s)] else [(false, s)]
  | [] => [(false, s)]

/-- Alternatives for the optional group `([\w.\/\\-]+)?`: matched with the
longest run first down to one character, then the group skipped. -/
def nameCandidates (s : Str) : List (Option Str × Str) :=
  ((List.range (s.takeWhile nameChar).length).reverse.map
    (fun k => (some (s.take (k + 1)), s.drop (k + 1))))
    ++ [(none, s)]

/-- First success of `f` along a list — the backtracking search order. -/
def firstSome (f : α → Option β) : List α → Option β
  | [] => none
  | a :: as =>
    match f a with
    | some b => some b
    | none => firstSome f as

/-- The tail `\n([\s\S]*?)\n\x60\x60\x60` of the block regex: a literal
newline, then the lazy body running to the first occurrence of the closing
delimiter.  Returns the body and the remainder after the closing fence. -/
def bodyMatch (s : Str) : Option (Str × Str) :=
  match s with
  | '\n' :: rest =>
    match findSub closeFence rest with
    | some j => some (rest.take j, rest.drop (j + closeFence.length))
    | none => none
  | _ => none

/-- Matching of `(\w*):?([\w.\/\\-]+)?\n([\s\S]*?)\n\x60\x60\x60` (the block
regex of `src/Home.tsx` line 188 after its opening fence), with JS
backtracking order made explicit.  Returns captures 1-3 and the remainder
after the match. -/
def matchAfterTicks (s : Str) : Option ((Str × Option Str × Str) × Str) :=
  firstSome (fun lc =>
    firstSome (fun cc =>
      firstSome (fun nc =>
        (bodyMatch nc.2).map (fun bm => ((lc.1, nc.1, bm.1), bm.2)))
        (nameCandidates cc.2))
      (colonCandidates lc.2))
    (starCandidates wordChar s)

/-- The object pushed for each block match:
`{lang: lang || 'text', name: name || 'untitled', content: content.trim()}`. -/
def mkCodeFile (lang : Str) (nameTok : Option Str) (body : Str) : CodeFile :=
  { lang := if lang = [] then "text".toList else lang
    name := nameTok.getD "untitled".toList
    content := trimStr body }

/-- The global `exec` loop of the block regex, on fuel (one unit per
character of the input; the remainder after a match is strictly shorter than
the matched-at suffix, so `s.length` fuel always suffices — see
`scanBlocksAux_eq`).  A position not starting with the opening fence, or
where the rest of the pattern fails, is skipped by one character; a match
resumes scanning after its closing fence (`lastIndex`). -/
def scanBlocksAux : Nat → Str → List CodeFile
  | 0, _ => []
  | _ + 1, [] => []
  | fuel + 1, c :: rest =>
    if ticks.isPrefixOf (c :: rest) then
      match matchAfterTicks (rest.drop 2) with
      | some ((lang, nameTok, body), rem) =>
        mkCodeFile lang nameTok body ::
          scanBlocksAux fuel ((rest.drop 2).drop ((rest.drop 2).length - rem.length))
      | none => scanBlocksAux fuel rest
    else scanBlocksAux fuel rest

/-- Successive non-overlapping leftmost matches of the block regex over a
files-section slice. -/
def scanBlocks (s : Str) : List CodeFile := scanBlocksAux s.length s

/-- Any fuel of at least the input length computes `scanBlocks`. -/
theorem scanBlocksAux_eq : ∀ (fuel : Nat) (s : Str), s.length ≤ fuel →
    scanBlocksAux fuel s = scanBlocks s := by
  intro fuel
  induction fuel using Nat.strong_induction_on with
  | _ fuel ih =>
    intro s hs
    cases s with
    | nil => cases fuel <;> rfl
    | cons c rest =>
      cases fuel with
      | zero => simp at hs
      | succ fuel =>
        have hr : rest.length ≤ fuel := by simpa using hs
        show scanBlocksAux (fuel + 1) (c :: rest) =
          scanBlocksAux (rest.length + 1) (c :: rest)
        simp only [scanBlocksAux]
        by_cases hp : ticks.isPrefixOf (c :: rest)
        · simp only [if_pos hp]
          cases hm : matchAfterTicks (rest.drop 2) with
          | none =>
            rw [ih fuel (Nat.lt_succ_self _) rest hr,
                ih rest.length (Nat.lt_succ_of_le hr) rest (Nat.le_refl _)]
          | some pr =>
            obtain ⟨⟨lang, nameTok, body⟩, rem⟩ := pr
            dsimp only
            have hx : ((rest.drop 2).drop
                ((rest.drop 2).length - rem.length)).length ≤ rest.length := by
              simp only [List.length_drop]
              omega
            rw [ih fuel (Nat.lt_succ_self _) _ (le_trans hx hr),
                ih rest.length (Nat.lt_succ_of_le hr) _ hx]
        · simp only [if_neg hp]
          rw [ih fuel (Nat.lt_succ_self _) rest hr,
              ih rest.length (Nat.lt_succ_of_le hr) rest (Nat.le_refl _)]

theorem scanBlocks_nil : scanBlocks [] = [] := rfl

/-- The step equation of the scanning loop. -/
theorem scanBlocks_cons (c : Char) (rest : Str) :
    scanBlocks (c :: rest) =
      if ticks.isPrefixOf (c :: rest) then
        match matchAfterTicks (rest.drop 2) with
        | some ((lang, nameTok, body), rem) =>
          mkCodeFile lang nameTok body ::
            scanBlocks ((rest.drop 2).drop ((rest.drop 2).length - rem.length))
        | none => scanBlocks rest
      else scanBlocks rest := by
  show scanBlocksAux (rest.length + 1) (c :: rest) = _
  simp only [scanBlocksAux]
  by_cases hp : ticks.isPrefixOf (c :: rest)
  · simp only [if_pos hp]
    cases hm : matchAfterTicks (rest.drop 2) with
    | none => rw [scanBlocksAux_eq rest.length rest (Nat.le_refl _)]
    | some pr =>
      obtain ⟨⟨lang, nameTok, body⟩, rem⟩ := pr
      dsimp only
      rw [scanBlocksAux_eq rest.length _ (by simp only [List.length_drop]; omega)]
  · simp only [if_neg hp]
    rw [scanBlocksAux_eq rest.length rest (Nat.le_refl _)]

/-- The fallback regex `/\x60\x60\x60(?:[\w]*)?\s*([\s\S]*?)\x60\x60\x60/`
(`src/Home.tsx` line 202), run once on the whole text; returns capture 1.
After the opening fence the word run and the whitespace run are consumed
greedily and the lazy capture ends at the first following occurrence of
three backticks.  No backtracking into the two runs can help, because an
occurrence of three backticks cannot begin at a word or whitespace character;
so when no closing fence follows, the attempt at this opening fence fails and
the scan advances one character, as in the JS engine. -/
def fallbackScan (s : Str) : Option Str :=
  match s with
  | [] => none
  | c :: rest =>
    if ticks.isPrefixOf (c :: rest) then
      let r2 := ((rest.drop 2).dropWhile wordChar).dropWhile jsWs
      match findSub ticks r2 with
      | some j => some (r2.take j)
      | none => fallbackScan rest
    else fallbackScan rest

/-- The parsed structured document (`{header, structure, notes, files}`). -/
structure Parsed where
  header : Str
  struct : Str
  notes : Str
  files : List CodeFile
deriving DecidableEq, Repr

/-- The code files extracted from the files section (the `if
(filesSectionMatch)` loop of `parseResponse`); empty when the files marker is
absent. -/
def filesFromRegion (text : Str) : List CodeFile :=
  match filesRegion text with
  | some sec => scanBlocks sec
  | none => []

/-- `parseResponse` (`src/Home.tsx` lines 169-214). -/
def parseResponse (text : Str) : Parsed :=
  let files0 := filesFromRegion text
  { header := (sectionBetween m41 m42 text).getD []
    struct := (sectionBetween m42 m43 text).getD []
    notes := (sectionAfter m44 text).getD []
    files :=
      if files0 = [] then
        match fallbackScan text with
        | some body =>
          [{ name := "code.js".toList, lang := "javascript".toList
             content := trimStr body }]
        | none => []
      else files0 }

/-! ### Preview assembly (`src/unnamed/part_000`, the `CodePreview` component) -/

/-- The apostrophe character (JS `'`). -/
def squote : Char := Char.ofNat 39

/-- The character class `["']` of the reference regex. -/
def quoteCh (c : Char) : Bool := c == '"' || c == squote

def dotSlash : Str := "./".toList

/-- The alternation `(href|src)` followed by the literal `=`; `href` is tried
first. -/
def attrAlt (s : Str) : Option (Str × Str) :=
  if "href=".toList.isPrefixOf s then some ("href".toList, s.drop 5)
  else if "src=".toList.isPrefixOf s then some ("src".toList, s.drop 4)
  else none

/-- The maximal run of non-quote characters at the front of `t`. -/
def noQuoteRun (t : Str) : Str := t.takeWhile (fun c => !quoteCh c)

/-- The tail `([^"']+)["']` of the reference regex: a greedy non-empty run of
non-quote characters, then a closing quote (either kind).  Only the maximal
run can succeed: a shorter run ends at a run character, which is not a quote.
Returns (capture, closing quote, remainder). -/
def pathClose (t : Str) : Option (Str × Char × Str) :=
  if noQuoteRun t = [] then none
  else
    match t.drop (noQuoteRun t).length with
    | q :: r => if quoteCh q then some (noQuoteRun t, q, r) else none
    | [] => none

/-- The optional group `(\.\/|)?` followed by the path-and-closing-quote
part: the `./` branch is tried first, then the empty branch, as in the JS
engine.  Returns (capture 2 = prefix, capture 3 = path, closing quote,
remainder). -/
def refPathPart (r2 : Str) : Option (Str × Str × Char × Str) :=
  if dotSlash.isPrefixOf r2 then
    match pathClose (r2.drop 2) with
    | some (run, q2, r3) => some (dotSlash, run, q2, r3)
    | none => (pathClose r2).map (fun pc => (([] : Str), pc.1, pc.2.1, pc.2.2))
  else (pathClose r2).map (fun pc => (([] : Str), pc.1, pc.2.1, pc.2.2))

/-- One attempt of `/(href|src)=["'](\.\/|)?([^"']+)["']/` at the start of
`s` (`src/unnamed/part_000` line 100).  Returns
(capture 1 = attribute, capture 3 = path, whole matched text, remainder). -/
def tryMatchRef (s : Str) : Option (Str × Str × Str × Str) :=
  match attrAlt s with
  | none => none
  | some (_, []) => none
  | some (attr, q1 :: r2) =>
    if quoteCh q1 then
      match refPathPart r2 with
      | some (pre, run, q2, r3) =>
        some (attr, run, attr ++ '=' :: q1 :: (pre ++ run ++ [q2]), r3)
      | none => none
    else none

theorem pathClose_shrink {t run q r} (h : pathClose t = some (run, q, r)) :
    r.length < t.length := by
  unfold pathClose at h
  split at h
  · simp at h
  · split at h
    · rename_i q' r' hq
      split at h
      · simp only [Option.some.injEq, Prod.mk.injEq] at h
        obtain ⟨-, -, hr⟩ := h
        subst hr
        have hlen := congrArg List.length hq
        simp only [List.length_drop, List.length_cons] at hlen
        omega
      · simp at h
    · simp at h

theorem refPathPart_shrink {r2 pre run q2 r3}
    (h : refPathPart r2 = some (pre, run, q2, r3)) : r3.length < r2.length := by
  unfold refPathPart at h
  split at h
  · split at h
    · rename_i run' q' r' hq
      simp only [Option.some.injEq, Prod.mk.injEq] at h
      obtain ⟨-, -, -, hr⟩ := h
      subst hr
      have := pathClose_shrink hq
      simp only [List.length_drop] at this
      omega
    · simp only [Option.map_eq_some'] at h
      obtain ⟨pc, hpc, heq⟩ := h
      obtain ⟨run', q', r'⟩ := pc
      simp only [Prod.mk.injEq] at heq
      obtain ⟨-, -, -, hr⟩ := heq
      subst hr
      exact pathClose_shrink hpc
  · simp only [Option.map_eq_some'] at h
    obtain ⟨pc, hpc, heq⟩ := h
    obtain ⟨run', q', r'⟩ := pc
    simp only [Prod.mk.injEq] at heq
    obtain ⟨-, -, -, hr⟩ := heq
    subst hr
    exact pathClose_shrink hpc

theorem attrAlt_shrink {s a r1} (h : attrAlt s = some (a, r1)) :
    r1.length < s.length := by
  unfold attrAlt at h
  split at h
  · rename_i h5
    have hs : 5 ≤ s.length := by
      have := List.IsPrefix.length_le (List.isPrefixOf_iff_prefix.mp h5)
      simpa using this
    simp only [Option.some.injEq, Prod.mk.injEq] at h
    obtain ⟨-, hr⟩ := h
    subst hr
    simp only [List.length_drop]
    omega
  · split at h
    · rename_i h4
      have hs : 4 ≤ s.length := by
        have := List.IsPrefix.length_le (List.isPrefixOf_iff_prefix.mp h4)
        simpa using this
      simp only [Option.some.injEq, Prod.mk.injEq] at h
      obtain ⟨-, hr⟩ := h
      subst hr
      simp only [List.length_drop]
      omega
    · simp at h

/-- The remainder of a successful reference match is strictly shorter. -/
theorem tryMatchRef_shrink {s a p m r} (h : tryMatchRef s = some (a, p, m, r)) :
    r.length < s.length := by
  unfold tryMatchRef at h
  split at h
  · simp at h
  · simp at h
  · rename_i attr q1 r2 hattr
    split at h
    · split at h
      · rename_i pre run q2 r3 hpp
        simp only [Option.some.injEq, Prod.mk.injEq] at h
        obtain ⟨-, -, -, hr⟩ := h
        subst hr
        have h1 := refPathPart_shrink hpp
        have h2 := attrAlt_shrink hattr
        simp only [List.length_cons] at h2
        omega
      · simp at h
    · simp at h

/-- The callback's path normalisation:
`path.startsWith('/') ? path.substring(1) : path`. -/
def stripSlash (p : Str) : Str :=
  match p with
  | '/' :: r => r
  | _ => p

/-- `Map.get` on the blob-URL table; `Map.set` overwrites, which is modelled
by keeping the table with the most recent binding first, so lookup takes the
first hit. -/
def lookupTable (table : List (Str × Str)) (k : Str) : Option Str :=
  (table.find? (fun e => e.1 = k)).map (fun e => e.2)

/-- `String.prototype.replace` with the global reference regex and the
substitution callback of `src/unnamed/part_000` lines 99-108, on fuel (one
unit per character; the remainder of a match is strictly shorter, see
`tryMatchRef_shrink`, so `s.length` fuel always suffices): successive
non-overlapping leftmost matches; on a table hit the match is replaced by
`attr="url"`, on a miss the matched text is kept verbatim; scanning resumes
after the match either way. -/
def rewriteAux (table : List (Str × Str)) : Nat → Str → Str
  | 0, s => s
  | _ + 1, [] => []
  | fuel + 1, c :: rest =>
    match tryMatchRef (c :: rest) with
    | some (attr, path, matched, r3) =>
      (match lookupTable table (stripSlash path) with
       | some url => attr ++ '=' :: '"' :: (url ++ ['"'])
       | none => matched) ++ rewriteAux table fuel r3
    | none => c :: rewriteAux table fuel rest

/-- The reference rewrite of the entry document. -/
def rewriteRefs (table : List (Str × Str)) (s : Str) : Str :=
  rewriteAux table s.length s

/-- Any fuel of at least the input length computes `rewriteRefs`. -/
theorem rewriteAux_eq (table : List (Str × Str)) :
    ∀ (fuel : Nat) (s : Str), s.length ≤ fuel →
    rewriteAux table fuel s = rewriteRefs table s := by
  intro fuel
  induction fuel using Nat.strong_induction_on with
  | _ fuel ih =>
    intro s hs
    cases s with
    | nil => cases fuel <;> rfl
    | cons c rest =>
      cases fuel with
      | zero => simp at hs
      | succ fuel =>
        have hr : rest.length ≤ fuel := by simpa using hs
        show rewriteAux table (fuel + 1) (c :: rest) =
          rewriteAux table (rest.length + 1) (c :: rest)
        simp only [rewriteAux]
        cases hm : tryMatchRef (c :: rest) with
        | none =>
          rw [ih fuel (Nat.lt_succ_self _) rest hr,
              ih rest.length (Nat.lt_succ_of_le hr) rest (Nat.le_refl _)]
        | some pr =>
          obtain ⟨attr, path, matched, r3⟩ := pr
          dsimp only
          have h3 : r3.length ≤ rest.length := by
            have := tryMatchRef_shrink hm
            simp only [List.length_cons] at this
            omega
          rw [ih fuel (Nat.lt_succ_self _) r3 (le_trans h3 hr),
              ih rest.length (Nat.lt_succ_of_le hr) r3 h3]

theorem rewriteRefs_nil (table : List (Str × Str)) : rewriteRefs table [] = [] := rfl

/-- The step equation of the rewrite loop. -/
theorem rewriteRefs_cons (table : List (Str × Str)) (c : Char) (rest : Str) :
    rewriteRefs table (c :: rest) =
      match tryMatchRef (c :: rest) with
      | some (attr, path, matched, r3) =>
        (match lookupTable table (stripSlash path) with
         | some url => attr ++ '=' :: '"' :: (url ++ ['"'])
         | none => matched) ++ rewriteRefs table r3
      | none => c :: rewriteRefs table rest := by
  show rewriteAux table (rest.length + 1) (c :: rest) = _
  simp only [rewriteAux]
  cases hm : tryMatchRef (c :: rest) with
  | none => rw [rewriteAux_eq table rest.length rest (Nat.le_refl _)]
  | some pr =>
    obtain ⟨attr, path, matched, r3⟩ := pr
    dsimp only
    have h3 : r3.length ≤ rest.length := by
      have := tryMatchRef_shrink hm
      simp only [List.length_cons] at this
      omega
    rw [rewriteAux_eq table rest.length r3 h3]

/-- The placeholder document rendered when no `index.html` exists
(`src/unnamed/part_000` line 76). -/
def placeholderMsg : Str :=
  ("<div class=\"flex items-center justify-center h-full text-gray-500\">" ++
   "<h2>No index.html found to preview.</h2></div>").toList

def indexName : Str := "index.html".toList

/-- MIME type inference from the file name suffix
(`src/unnamed/part_000` lines 85-90). -/
def mimeType (name : Str) : Str :=
  if ".html".toList.isSuffixOf name then "text/html".toList
  else if ".css".toList.isSuffixOf name then "text/css".toList
  else if ".js".toList.isSuffixOf name then "application/javascript".toList
  else if ".json".toList.isSuffixOf name then "application/json".toList
  else if ".svg".toList.isSuffixOf name then "image/svg+xml".toList
  else "text/plain".toList

/-- The blob-URL creation loop: one `URL.createObjectURL` call per file, in
file order.  `urls i` stands for the opaque URL returned by the i-th call.
Returned in creation order. -/
def materializeAssets (urls : Nat → Str) (files : List CodeFile) :
    List (Str × Str) :=
  files.enum.map (fun fi => (fi.2.name, urls fi.1))

/-- The lookup table corresponding to `Map.set` done in creation order:
a later `set` for the same key overwrites, i.e. the reversed creation list
searched front-first. -/
def tableOf (urls : Nat → Str) (files : List CodeFile) : List (Str × Str) :=
  (materializeAssets urls files).reverse

/-- The outcome of the preview effect (`src/unnamed/part_000` lines 72-118):
the `srcDoc` content and the set of blob resources created. -/
structure PreviewOutcome where
  content : Str
  materialized : List (Str × Str)
deriving DecidableEq

/-- The preview effect: if no file is named `index.html`, set the placeholder
content and return before any blob URL is created; otherwise materialize all
files and rewrite the entry file's references. -/
def computePreview (urls : Nat → Str) (files : List CodeFile) :
    PreviewOutcome :=
  match files.find? (fun f => f.name = indexName) with
  | none => { content := placeholderMsg, materialized := [] }
  | some main =>
    { content := rewriteRefs (tableOf urls files) main.content
      materialized := materializeAssets urls files }

/-- The initial `selectedFile` state
(`files.find((f) => f.name === 'index.html') || files[0]`,
`src/unnamed/part_000` lines 40-42); `none` models `undefined`. -/
def initialSelected (files : List CodeFile) : Option CodeFile :=
  match files.find? (fun f => f.name = indexName) with
  | some f => some f
  | none => files.head?

/-- The `sandbox` attribute of the preview iframe
(`src/unnamed/part_000` line 126). -/
def sandboxAttr : Str := "allow-scripts allow-same-origin".toList

/-- Split on single spaces. -/
def splitOnSpace (s : Str) : List Str :=
  match s with
  | [] => [[]]
  | c :: rest =>
    if c = ' ' then [] :: splitOnSpace rest
    else
      match splitOnSpace rest with
      | h :: t => (c :: h) :: t
      | [] => [[c]]

/-- The privilege tokens granted by the sandbox attribute (an HTML sandbox
attribute is a space-separated token set). -/
def sandboxTokens : List Str := splitOnSpace sandboxAttr

/-! ### Generation state machine (`Home`, `src/Home.tsx` lines 330-360 and
550-580) -/

/-- The parts of `Home`'s state relevant to generation and display. -/
structure HomeState where
  output : Option Parsed
  showErrorModal : Bool
  loading : Bool
deriving DecidableEq

/-- The synchronous prefix of `generateCode`:
`setLoading(true); setOutput(null)`. -/
def startGeneration (s : HomeState) : HomeState :=
  { s with loading := true, output := none }

/-- The continuation of `generateCode` once the model call settles: `none`
models a rejected call (the `catch` branch); `some t` models a response text.
An empty parsed files list opens the error modal and leaves `output`
untouched; otherwise the parsed document is stored.  `finally` clears
`loading`. -/
def settleGeneration (response : Option Str) (s : HomeState) : HomeState :=
  match response with
  | none => { s with showErrorModal := true, loading := false }
  | some t =>
    let parsed := parseResponse t
    if parsed.files = [] then { s with showErrorModal := true, loading := false }
    else { s with output := some parsed, loading := false }

/-- One full `generateCode` run. -/
def generateRun (response : Option Str) (s : HomeState) : HomeState :=
  settleGeneration response (startGeneration s)

/-- What the output column renders (`src/Home.tsx` lines 550-580):
the spinner while loading, else `CodePreview` when an output document is
stored, else the idle placeholder. -/
inductive MainView where
  | loadingView : MainView
  | previewView : Parsed → MainView
  | idleView : MainView
deriving DecidableEq

def renderMain (s : HomeState) : MainView :=
  if s.loading then .loadingView
  else
    match s.output with
    | some doc => .previewView doc
    | none => .idleView

/-! ### Specification-side comparison definitions -/

/-- The spec's region notion, following the claim's words: the raw
(untrimmed) text between the first occurrence of the region's own marker and
the first following occurrence of the next marker. -/
def rawBetween (a b text : Str) : Option Str :=
  match findSub a text with
  | none => none
  | some i =>
    let rest := text.drop (i + a.length)
    (findSub b rest).map (fun j => rest.take j)

/-- The raw text from the end of the first occurrence of `a` to the end. -/
def rawAfter (a text : Str) : Option Str :=
  (findSub a text).map (fun i => text.drop (i + a.length))

/-- The claim's lookup-key derivation for a reference path: drop an optional
leading `./`, then an optional leading `/`. -/
def claimKey (p : Str) : Str :=
  stripSlash (if dotSlash.isPrefixOf p then p.drop 2 else p)

/-! ### Helper lemmas -/

theorem hasSub_cons {pat : Str} {c : Char} {s : Str} (h : hasSub pat (c :: s) = false) :
    hasSub pat s = false := by
  unfold hasSub at h ⊢
  cases hf : findSub pat s with
  | none => simp
  | some j =>
    exfalso
    have hstep : findSub pat (c :: s) =
        if pat.isPrefixOf (c :: s) then some 0
        else (findSub pat s).map (· + 1) := rfl
    rw [hstep, hf] at h
    split at h <;> simp at h

theorem sectionBetween_eq (a b text : Str) :
    sectionBetween a b text = (rawBetween a b text).map trimStr := by
  unfold sectionBetween rawBetween
  cases findSub a text with
  | none => rfl
  | some i =>
    simp only []
    cases findSub b (text.drop (i + a.length)) with
    | none => rfl
    | some j => rfl

theorem filesRegion_eq (text : Str) :
    filesRegion text =
      match rawBetween m43full m44 text with
      | some r => some (trimStr r)
      | none => (rawAfter m43full text).map trimL := by
  unfold filesRegion rawBetween rawAfter
  cases findSub m43full text with
  | none => rfl
  | some i =>
    simp only []
    cases findSub m44 (text.drop (i + m43full.length)) with
    | none => rfl
    | some j => rfl

/-- A `find?` hit is the first element satisfying the predicate. -/
theorem find?_first {p : α → Bool} {l : List α} {a : α} (h : l.find? p = some a) :
    ∃ pre post, l = pre ++ a :: post ∧ p a = true ∧ ∀ x ∈ pre, p x = false := by
  induction l with
  | nil => simp at h
  | cons b t ih =>
    by_cases hb : p b
    · rw [List.find?_cons_of_pos _ hb] at h
      cases h
      exact ⟨[], t, rfl, hb, by simp⟩
    · rw [List.find?_cons_of_neg _ (by simpa using hb)] at h
      obtain ⟨pre, post, hl, hpa, hpre⟩ := ih h
      refine ⟨b :: pre, post, by simp [hl], hpa, ?_⟩
      intro x hx
      rcases List.mem_cons.mp hx with hx | hx
      · subst hx; simpa using hb
      · exact hpre x hx

/-! ### Canonical tagged-block assemblies (spec side of C4) -/

/-- A correctly tagged fenced block: optional language token, optional
`:`-prefixed name token, body. -/
structure TaggedBlock where
  langTok : Str
  nameTok : Option Str
  body : Str
deriving DecidableEq

/-- The optional `:name` part of an opening fence line. -/
def nmPart : Option Str → Str
  | some n => ':' :: n
  | none => []

/-- The concrete text of a tagged block. -/
def renderBlock (b : TaggedBlock) : Str :=
  ticks ++ (b.langTok ++ (nmPart b.nameTok ++ '\n' :: (b.body ++ closeFence)))

/-- Well-formedness of a tagged block: the language token consists of word
characters, the name token (when present) is a non-empty run of name
characters, and the body does not contain the closing delimiter. -/
def wfBlock (b : TaggedBlock) : Bool :=
  b.langTok.all wordChar &&
  (match b.nameTok with
   | some n => !n.isEmpty && n.all nameChar
   | none => true) &&
  !hasSub closeFence b.body

/-- The `CodeFile` the extractor is expected to produce for a block. -/
def toCodeFile (b : TaggedBlock) : CodeFile :=
  mkCodeFile b.langTok b.nameTok b.body

/-- Blocks interleaved with the separator text following each of them. -/
def blockList : List (TaggedBlock × Str) → Str
  | [] => []
  | (b, sep) :: t => renderBlock b ++ (sep ++ blockList t)

/-- A files-section slice: leading separator, then the interleaved blocks. -/
def assembleBlocks (sep0 : Str) (items : List (TaggedBlock × Str)) : Str :=
  sep0 ++ blockList items

/-! ### Helper lemmas about runs, occurrences and the backtracking search -/

/-- The backtick character. -/
def btick : Char := Char.ofNat 96

theorem ticks_eq : ticks = [btick, btick, btick] := by decide

theorem closeFence_eq : closeFence = '\n' :: ticks := by decide

theorem takeWhile_all_append {p : Char → Bool} {l : Str}
    (hl : ∀ c ∈ l, p c = true) {x : Char} (hx : p x = false) (t : Str) :
    ((l ++ x :: t).takeWhile p = l) ∧ ((l ++ x :: t).dropWhile p = x :: t) := by
  induction l with
  | nil => simp [List.takeWhile_cons, List.dropWhile_cons, hx]
  | cons a l ih =>
    have ha : p a = true := hl a (by simp)
    obtain ⟨h1, h2⟩ := ih (fun c hc => hl c (by simp [hc]))
    simp [List.takeWhile_cons, List.dropWhile_cons, ha, h1, h2]

theorem findSub_front {pat s : Str} (hp : pat ≠ [])
    (h : pat.isPrefixOf s = true) : findSub pat s = some 0 := by
  cases s with
  | nil =>
    rw [List.isPrefixOf_iff_prefix] at h
    exact absurd (List.prefix_nil.mp h) hp
  | cons c r => simp [findSub, h]

/-- If a pattern first matches at index `i`, `findSub` returns `i`. -/
theorem findSub_eq_some_of {pat : Str} : ∀ {s : Str} (i : Nat),
    pat.isPrefixOf (s.drop i) = true →
    (∀ q < i, pat.isPrefixOf (s.drop q) = false) →
    findSub pat s = some i := by
  intro s
  induction s with
  | nil =>
    intro i hp hmin
    cases i with
    | zero =>
      simp only [List.drop_nil] at hp
      rw [List.isPrefixOf_iff_prefix] at hp
      have : pat = [] := List.prefix_nil.mp hp
      subst this
      rfl
    | succ i =>
      have := hmin 0 (Nat.succ_pos _)
      simp only [List.drop_nil] at hp this
      rw [hp] at this
      exact absurd this (by simp)
  | cons c r ih =>
    intro i hp hmin
    cases i with
    | zero =>
      simp only [List.drop_zero] at hp
      show (if pat.isPrefixOf (c :: r) then some 0
            else (findSub pat r).map (· + 1)) = some 0
      rw [if_pos hp]
    | succ i =>
      have h0 : pat.isPrefixOf (c :: r) = false := by
        simpa using hmin 0 (Nat.succ_pos _)
      show (if pat.isPrefixOf (c :: r) then some 0
            else (findSub pat r).map (· + 1)) = some (i + 1)
      rw [if_neg (by simp [h0])]
      have hrec : findSub pat r = some i := by
        refine ih i (by simpa using hp) ?_
        intro q hq
        simpa using hmin (q + 1) (by omega)
      rw [hrec]
      rfl

/-- A character of the matched region just past a shorter left part. -/
theorem prefix_boundary {pat d t : Str} {c : Char}
    (h : pat.isPrefixOf (d ++ c :: t) = true) (hd : d.length < pat.length) :
    pat[d.length]? = some c := by
  rw [List.isPrefixOf_iff_prefix] at h
  obtain ⟨u, hu⟩ := h
  have hget := congrArg (fun l => l[d.length]?) hu
  simp only at hget
  rw [List.getElem?_append_left (by omega)] at hget
  have hr : (d ++ c :: t)[d.length]? = some c := by
    rw [List.getElem?_append_right (Nat.le_refl _)]
    simp
  rw [hr] at hget
  exact hget

/-- First occurrence of the closing delimiter in `body ++ closeFence ++ rest`
is exactly at the end of a body that does not contain it: no occurrence can
straddle the boundary, since characters 1-3 of the delimiter are backticks
while its own first character is a newline. -/
theorem closeFence_first {rest : Str} : ∀ {body : Str},
    hasSub closeFence body = false →
    findSub closeFence (body ++ (closeFence ++ rest)) = some body.length := by
  intro body
  induction body with
  | nil =>
    intro _
    exact findSub_front (by decide)
      (List.isPrefixOf_iff_prefix.mpr (by simp))
  | cons c body' ih =>
    intro hb
    have hb' := hasSub_cons hb
    have hnp : closeFence.isPrefixOf ((c :: body') ++ (closeFence ++ rest)) = false := by
      by_contra hcon
      rw [Bool.not_eq_false] at hcon
      by_cases hlen : closeFence.length ≤ (c :: body').length
      · have h4 : closeFence = ((c :: body') ++ (closeFence ++ rest)).take closeFence.length :=
          List.prefix_iff_eq_take.mp (List.isPrefixOf_iff_prefix.mp hcon)
        rw [List.take_append_of_le_length hlen] at h4
        have hpre : closeFence <+: (c :: body') := h4 ▸ List.take_prefix _ _
        have : hasSub closeFence (c :: body') = true := by
          unfold hasSub
          rw [findSub_front (by decide) (List.isPrefixOf_iff_prefix.mpr hpre)]
          rfl
        rw [this] at hb
        exact absurd hb (by simp)
      · have hk : (c :: body').length < closeFence.length := by omega
        have hbd := prefix_boundary (d := c :: body') (c := '\n')
          (t := ticks ++ rest) (by
            have : (c :: body') ++ (closeFence ++ rest) =
                (c :: body') ++ '\n' :: (ticks ++ rest) := by
              rw [closeFence_eq]
              simp
            rw [this] at hcon
            exact hcon) hk
        have hcl : closeFence.length = 4 := by decide
        have hk4 : (c :: body').length < 4 := by omega
        have h123 : (c :: body').length = 1 ∨ (c :: body').length = 2 ∨
            (c :: body').length = 3 := by
          simp only [List.length_cons] at hk4 ⊢
          omega
        rcases h123 with h1 | h1 | h1 <;> rw [h1] at hbd <;>
          exact absurd hbd (by decide)
    have hstep : findSub closeFence ((c :: body') ++ (closeFence ++ rest)) =
        if closeFence.isPrefixOf ((c :: body') ++ (closeFence ++ rest)) then some 0
        else (findSub closeFence (body' ++ (closeFence ++ rest))).map (· + 1) := rfl
    rw [hstep, hnp]
    simp only [Bool.false_eq_true, if_false]
    rw [ih hb']
    rfl

theorem firstSome_cons_some {f : α → Option β} {a : α} {as : List α} {b : β}
    (h : f a = some b) : firstSome f (a :: as) = some b := by
  unfold firstSome
  rw [h]

theorem firstSome_singleton (f : α → Option β) (a : α) :
    firstSome f [a] = f a := by
  unfold firstSome
  cases h : f a <;> simp [firstSome, h]

theorem bodyMatch_head_ne {c : Char} (hc : ¬ c = '\n') (s : Str) :
    bodyMatch (c :: s) = none := by
  unfold bodyMatch
  split
  · rename_i rest heq
    injection heq with h1 h2
    exact absurd h1 hc
  · rfl

/-- On a rendered block tail, the body search finds the closing delimiter at
the end of the body and returns the remainder after it. -/
theorem bodyMatch_render {body : Str} (hb : hasSub closeFence body = false)
    (rest : Str) :
    bodyMatch ('\n' :: (body ++ (closeFence ++ rest))) = some (body, rest) := by
  have hstep : bodyMatch ('\n' :: (body ++ (closeFence ++ rest))) =
      match findSub closeFence (body ++ (closeFence ++ rest)) with
      | some j =>
        some ((body ++ (closeFence ++ rest)).take j,
          (body ++ (closeFence ++ rest)).drop (j + closeFence.length))
      | none => none := rfl
  rw [hstep, closeFence_first hb]
  dsimp only
  have h1 : (body ++ (closeFence ++ rest)).take body.length = body :=
    List.take_left body _
  have h2 : (body ++ (closeFence ++ rest)).drop (body.length + closeFence.length) =
      rest := by
    rw [← List.append_assoc]
    have hlen : body.length + closeFence.length = (body ++ closeFence).length := by
      simp [List.length_append]
    rw [hlen, List.drop_left]
  rw [h1, h2]

/-- The block regex cannot start matching when the character right after the
three consumed backticks is itself a backtick: the language run is empty, no
colon or name characters follow, and the mandatory newline is missing. -/
theorem matchAfterTicks_tickhead (s : Str) : matchAfterTicks (btick :: s) = none := by
  have hw : wordChar btick = false := by decide
  have hn : nameChar btick = false := by decide
  have hbm : bodyMatch (btick :: s) = none := bodyMatch_head_ne (by decide) s
  unfold matchAfterTicks starCandidates
  rw [List.takeWhile_cons, hw]
  simp only [Bool.false_eq_true, if_false, List.length_nil, Nat.zero_add,
    List.range_succ, List.range_zero, List.nil_append, List.reverse_singleton,
    List.map_cons, List.map_nil, List.take_zero, List.drop_zero]
  rw [firstSome_singleton]
  dsimp only
  have hcc : colonCandidates (btick :: s) = [(false, btick :: s)] := by
    unfold colonCandidates
    dsimp only
    rw [if_neg (show ¬(btick = ':') by decide)]
  rw [hcc, firstSome_singleton]
  dsimp only
  have hname : nameCandidates (btick :: s) = [(none, btick :: s)] := by
    unfold nameCandidates
    rw [List.takeWhile_cons, hn]
    simp
  rw [hname, firstSome_singleton]
  dsimp only
  rw [hbm]
  rfl

/-- On a well-formed rendered block tail (after the opening backticks), the
block regex succeeds on its first backtracking candidate and captures the
language token, the name token and the body, leaving exactly the text after
the closing fence. -/
theorem matchAfterTicks_render (L : Str) (hL : ∀ c ∈ L, wordChar c = true)
    (nOpt : Option Str) (hn : ∀ n, nOpt = some n → n ≠ [] ∧ ∀ c ∈ n, nameChar c = true)
    (body : Str) (hb : hasSub closeFence body = false) (rest : Str) :
    matchAfterTicks (L ++ (nmPart nOpt ++ '\n' :: (body ++ (closeFence ++ rest)))) =
      some ((L, nOpt, body), rest) := by
  cases nOpt with
  | none =>
    have hin : L ++ (nmPart none ++ '\n' :: (body ++ (closeFence ++ rest))) =
        L ++ '\n' :: (body ++ (closeFence ++ rest)) := by
      simp [nmPart]
    rw [hin]
    have hts := takeWhile_all_append hL (x := '\n') (by decide)
      (body ++ (closeFence ++ rest))
    unfold matchAfterTicks starCandidates
    rw [hts.1, List.range_succ, List.reverse_append]
    simp only [List.reverse_cons, List.reverse_nil, List.nil_append,
      List.singleton_append, List.map_cons, List.take_left, List.drop_left]
    apply firstSome_cons_some
    dsimp only
    have hcc : colonCandidates ('\n' :: (body ++ (closeFence ++ rest))) =
        [(false, '\n' :: (body ++ (closeFence ++ rest)))] := by
      unfold colonCandidates
      dsimp only
      rw [if_neg (show ¬('\n' = ':') by decide)]
    rw [hcc, firstSome_singleton]
    dsimp only
    have hname : nameCandidates ('\n' :: (body ++ (closeFence ++ rest))) =
        [(none, '\n' :: (body ++ (closeFence ++ rest)))] := by
      unfold nameCandidates
      rw [List.takeWhile_cons]
      rw [show nameChar '\n' = false from by decide]
      simp
    rw [hname, firstSome_singleton]
    dsimp only
    rw [bodyMatch_render hb rest]
    rfl
  | some n =>
    obtain ⟨hne, hnc⟩ := hn n rfl
    have hin : L ++ (nmPart (some n) ++ '\n' :: (body ++ (closeFence ++ rest))) =
        L ++ ':' :: (n ++ '\n' :: (body ++ (closeFence ++ rest))) := by
      simp [nmPart]
    rw [hin]
    have hts := takeWhile_all_append hL (x := ':') (by decide)
      (n ++ '\n' :: (body ++ (closeFence ++ rest)))
    unfold matchAfterTicks starCandidates
    rw [hts.1, List.range_succ, List.reverse_append]
    simp only [List.reverse_cons, List.reverse_nil, List.nil_append,
      List.singleton_append, List.map_cons, List.take_left, List.drop_left]
    apply firstSome_cons_some
    dsimp only
    have hcc : colonCandidates (':' :: (n ++ '\n' :: (body ++ (closeFence ++ rest)))) =
        [(true, n ++ '\n' :: (body ++ (closeFence ++ rest))),
         (false, ':' :: (n ++ '\n' :: (body ++ (closeFence ++ rest))))] := by
      unfold colonCandidates
      dsimp only
      rw [if_pos rfl]
    rw [hcc]
    apply firstSome_cons_some
    dsimp only
    obtain ⟨m, hm⟩ : ∃ m, n.length = m + 1 := by
      cases n with
      | nil => exact absurd rfl hne
      | cons a t => exact ⟨t.length, rfl⟩
    have htsn := takeWhile_all_append hnc (x := '\n') (by decide)
      (body ++ (closeFence ++ rest))
    have hname : nameCandidates (n ++ '\n' :: (body ++ (closeFence ++ rest))) =
        (some n, '\n' :: (body ++ (closeFence ++ rest))) ::
          ((List.range m).reverse.map
            (fun k => (some ((n ++ '\n' :: (body ++ (closeFence ++ rest))).take (k + 1)),
              (n ++ '\n' :: (body ++ (closeFence ++ rest))).drop (k + 1))) ++
           [(none, n ++ '\n' :: (body ++ (closeFence ++ rest)))]) := by
      unfold nameCandidates
      rw [htsn.1, hm, List.range_succ, List.reverse_append]
      simp only [List.reverse_cons, List.reverse_nil, List.nil_append,
        List.singleton_append, List.map_cons, List.cons_append]
      rw [show m + 1 = n.length from hm.symm, List.take_left, List.drop_left]
    rw [hname]
    apply firstSome_cons_some
    dsimp only
    rw [bodyMatch_render hb rest]
    rfl

theorem wfBlock_spec {b : TaggedBlock} (h : wfBlock b = true) :
    (∀ c ∈ b.langTok, wordChar c = true) ∧
    (∀ n, b.nameTok = some n → n ≠ [] ∧ ∀ c ∈ n, nameChar c = true) ∧
    hasSub closeFence b.body = false := by
  unfold wfBlock at h
  simp only [Bool.and_eq_true, Bool.not_eq_true'] at h
  obtain ⟨⟨h1, h2⟩, h3⟩ := h
  refine ⟨fun c hc => by simpa using List.all_eq_true.mp h1 c hc, ?_, h3⟩
  intro n hsome
  rw [hsome] at h2
  simp only [Bool.and_eq_true, Bool.not_eq_true'] at h2
  obtain ⟨h21, h22⟩ := h2
  exact ⟨by simpa using h21, fun c hc => by simpa using List.all_eq_true.mp h22 c hc⟩

/-- Scanning a rendered well-formed block emits its `CodeFile` and resumes
right after its closing fence. -/
theorem scanBlocks_renderBlock (b : TaggedBlock) (hb : wfBlock b = true)
    (rest : Str) :
    scanBlocks (renderBlock b ++ rest) = toCodeFile b :: scanBlocks rest := by
  obtain ⟨hL', hn', hbody⟩ := wfBlock_spec hb
  have hshape : renderBlock b ++ rest =
      btick :: btick :: btick ::
        (b.langTok ++ (nmPart b.nameTok ++ '\n' ::
          (b.body ++ (closeFence ++ rest)))) := by
    unfold renderBlock
    rw [ticks_eq]
    simp [List.append_assoc]
  rw [hshape, scanBlocks_cons]
  have hpre : ticks.isPrefixOf (btick :: btick :: btick ::
      (b.langTok ++ (nmPart b.nameTok ++ '\n' ::
        (b.body ++ (closeFence ++ rest))))) = true := by
    rw [ticks_eq]
    simp [List.isPrefixOf]
  simp only [hpre, if_true]
  simp only [List.drop_succ_cons, List.drop_zero]
  rw [matchAfterTicks_render b.langTok hL' b.nameTok hn' b.body hbody rest]
  dsimp only
  have hX : b.langTok ++ (nmPart b.nameTok ++ '\n' ::
      (b.body ++ (closeFence ++ rest))) =
      (b.langTok ++ (nmPart b.nameTok ++ '\n' :: (b.body ++ closeFence))) ++ rest := by
    simp [List.append_assoc]
  rw [hX]
  have hlen : ((b.langTok ++ (nmPart b.nameTok ++ '\n' ::
      (b.body ++ closeFence))) ++ rest).length - rest.length =
      (b.langTok ++ (nmPart b.nameTok ++ '\n' :: (b.body ++ closeFence))).length := by
    simp only [List.length_append]
    omega
  rw [hlen, List.drop_left]
  rfl

/-- Scanning passes over a separator that contains no triple backtick (the
only positions that look like an opening fence straddle into the following
block's own fence and fail on the leftover backtick). -/
theorem scanBlocks_seg : ∀ (seg : Str), hasSub ticks seg = false →
    ∀ (rest : Str), (rest = [] ∨ ∃ r, rest = ticks ++ r) →
    scanBlocks (seg ++ rest) = scanBlocks rest := by
  intro seg
  induction seg with
  | nil =>
    intro _ rest _
    rw [List.nil_append]
  | cons c seg' ih =>
    intro hseg rest hrest
    have hseg' := hasSub_cons hseg
    rw [List.cons_append, scanBlocks_cons]
    by_cases hp : ticks.isPrefixOf (c :: (seg' ++ rest)) = true
    · rw [if_pos hp]
      have hdrop : ∃ s', (seg' ++ rest).drop 2 = btick :: s' := by
        cases seg' with
        | nil =>
          rcases hrest with rfl | ⟨r, rfl⟩
          · rw [ticks_eq] at hp
            simp [List.isPrefixOf] at hp
          · refine ⟨r, ?_⟩
            rw [List.nil_append, ticks_eq]
            rfl
        | cons d seg'' =>
          cases seg'' with
          | nil =>
            rcases hrest with rfl | ⟨r, rfl⟩
            · rw [ticks_eq] at hp
              simp [List.isPrefixOf] at hp
            · refine ⟨btick :: r, ?_⟩
              rw [ticks_eq]
              rfl
          | cons e seg''' =>
            exfalso
            rw [ticks_eq] at hp
            simp only [List.cons_append, List.isPrefixOf, Bool.and_eq_true,
              beq_iff_eq] at hp
            obtain ⟨h1, h2, h3, -⟩ := hp
            subst h1
            subst h2
            subst h3
            have hpre3 : ticks.isPrefixOf (btick :: btick :: btick :: seg''') = true := by
              rw [ticks_eq]
              simp [List.isPrefixOf]
            have hcontra : hasSub ticks (btick :: btick :: btick :: seg''') = true := by
              unfold hasSub
              rw [findSub_front (by decide) hpre3]
              rfl
            rw [hcontra] at hseg
            exact absurd hseg (by simp)
      obtain ⟨s', hs'⟩ := hdrop
      rw [hs', matchAfterTicks_tickhead]
      exact ih hseg' rest hrest
    · rw [if_neg hp]
      exact ih hseg' rest hrest

/-- Scanning a whole canonical files-section slice extracts exactly the
assembled blocks, in order. -/
theorem scanBlocks_assemble : ∀ (items : List (TaggedBlock × Str)),
    (∀ p ∈ items, wfBlock p.1 = true ∧ hasSub ticks p.2 = false) →
    ∀ (sep0 : Str), hasSub ticks sep0 = false →
    scanBlocks (assembleBlocks sep0 items) =
      items.map (fun p => toCodeFile p.1) := by
  intro items
  induction items with
  | nil =>
    intro _ sep0 h0
    unfold assembleBlocks blockList
    rw [scanBlocks_seg sep0 h0 [] (Or.inl rfl)]
    rfl
  | cons p t ih =>
    intro hwf sep0 h0
    obtain ⟨b, sep⟩ := p
    obtain ⟨hb, hsep⟩ := hwf (b, sep) (by simp)
    unfold assembleBlocks blockList
    rw [scanBlocks_seg sep0 h0 _
      (Or.inr ⟨_, by rw [renderBlock, List.append_assoc]⟩)]
    rw [scanBlocks_renderBlock b hb (sep ++ blockList t)]
    have hrec := ih (fun q hq => hwf q (by simp [hq])) sep hsep
    unfold assembleBlocks at hrec
    rw [hrec]
    rfl

/-! ### Canonical reference decompositions (spec side of C7/C9) -/

/-- One attribute reference `attr=q path q` occurring in the entry document. -/
structure RefPart where
  attr : Str
  q1 : Char
  path : Str
  q2 : Char
deriving DecidableEq

/-- The concrete text of a reference. -/
def renderRef (r : RefPart) : Str :=
  r.attr ++ '=' :: r.q1 :: (r.path ++ [r.q2])

/-- Well-formedness of a reference: a real attribute name, quote delimiters
(possibly of different kinds), and a non-empty quote-free path other than the
bare `./`. -/
def wfRef (r : RefPart) : Bool :=
  (r.attr == "href".toList || r.attr == "src".toList) &&
  quoteCh r.q1 && quoteCh r.q2 &&
  !r.path.isEmpty && r.path.all (fun c => !quoteCh c) &&
  !(r.path == dotSlash)

/-- Inert document text: no quote characters at all. -/
def segOk (s : Str) : Bool := s.all (fun c => !quoteCh c)

/-- References interleaved with the inert text following each of them. -/
def joinRefs : List (RefPart × Str) → Str
  | [] => []
  | (r, sep) :: t => renderRef r ++ (sep ++ joinRefs t)

/-- An entry document: inert prefix, then the interleaved references. -/
def docOf (seg0 : Str) (items : List (RefPart × Str)) : Str :=
  seg0 ++ joinRefs items

/-- What one reference becomes under the rewrite: on a table hit for the
claim's key (path minus optional leading `./` and minus optional leading `/`)
the reference is re-emitted as `attr="url"`; on a miss it is untouched. -/
def rewrittenRef (table : List (Str × Str)) (r : RefPart) : RefPart :=
  match lookupTable table (claimKey r.path) with
  | some url => ⟨r.attr, '"', url, '"'⟩
  | none => r

def rewriteItems (table : List (Str × Str)) (items : List (RefPart × Str)) :
    List (RefPart × Str) :=
  items.map (fun p => (rewrittenRef table p.1, p.2))

theorem wfRef_spec {r : RefPart} (h : wfRef r = true) :
    (r.attr = "href".toList ∨ r.attr = "src".toList) ∧ quoteCh r.q1 = true ∧
    quoteCh r.q2 = true ∧ r.path ≠ [] ∧ (∀ c ∈ r.path, quoteCh c = false) ∧
    r.path ≠ dotSlash := by
  unfold wfRef at h
  simp only [Bool.and_eq_true, Bool.or_eq_true, beq_iff_eq,
    Bool.not_eq_true'] at h
  obtain ⟨⟨⟨⟨⟨h1, h2⟩, h3⟩, h4⟩, h5⟩, h6⟩ := h
  refine ⟨h1, h2, h3, ?_, ?_, ?_⟩
  · intro h0
    rw [h0] at h4
    simp at h4
  · intro c hc
    simpa using List.all_eq_true.mp h5 c hc
  · intro h0
    rw [h0] at h6
    simp at h6

theorem attrAlt_href (X : Str) :
    attrAlt ("href".toList ++ '=' :: X) = some ("href".toList, X) := by
  unfold attrAlt
  have hpre : "href=".toList.isPrefixOf ("href".toList ++ '=' :: X) = true := by
    rw [List.isPrefixOf_iff_prefix]
    exact ⟨X, by rw [show "href=".toList = "href".toList ++ ['='] from by decide]; simp⟩
  rw [if_pos hpre]
  have hdrop : ("href".toList ++ '=' :: X).drop 5 = X := by
    rw [show "href".toList = ['h', 'r', 'e', 'f'] from by decide]
    rfl
  rw [hdrop]

theorem attrAlt_src (X : Str) :
    attrAlt ("src".toList ++ '=' :: X) = some ("src".toList, X) := by
  unfold attrAlt
  have hnot : "href=".toList.isPrefixOf ("src".toList ++ '=' :: X) = false := by
    rw [show "href=".toList = 'h' :: "ref=".toList from by decide,
        show "src".toList = ['s', 'r', 'c'] from by decide]
    simp [List.isPrefixOf]
  rw [hnot]
  have hpre : "src=".toList.isPrefixOf ("src".toList ++ '=' :: X) = true := by
    rw [List.isPrefixOf_iff_prefix]
    exact ⟨X, by rw [show "src=".toList = "src".toList ++ ['='] from by decide]; simp⟩
  simp only [Bool.false_eq_true, if_false]
  rw [if_pos hpre]
  have hdrop : ("src".toList ++ '=' :: X).drop 4 = X := by
    rw [show "src".toList = ['s', 'r', 'c'] from by decide]
    rfl
  rw [hdrop]

theorem pathClose_run {path : Str} (hne : path ≠ [])
    (hnq : ∀ c ∈ path, quoteCh c = false) {q2 : Char} (hq2 : quoteCh q2 = true)
    (rest : Str) :
    pathClose (path ++ (q2 :: rest)) = some (path, q2, rest) := by
  have hts := takeWhile_all_append (p := fun c => !quoteCh c) (l := path)
    (fun c hc => by simp [hnq c hc]) (x := q2) (by simp [hq2]) rest
  unfold pathClose noQuoteRun
  rw [hts.1, if_neg hne, List.drop_left]
  dsimp only
  rw [if_pos hq2]

theorem quote_ne_slash {q : Char} (hq : quoteCh q = true) : ¬ ('/' = q) := by
  unfold quoteCh at hq
  simp only [Bool.or_eq_true, beq_iff_eq] at hq
  rcases hq with h | h <;> rw [h] <;> decide

theorem refPathPart_plain {path : Str} (hne : path ≠ [])
    (hnq : ∀ c ∈ path, quoteCh c = false)
    (hnds : dotSlash.isPrefixOf path = false) {q2 : Char}
    (hq2 : quoteCh q2 = true) (rest : Str) :
    refPathPart (path ++ (q2 :: rest)) = some ([], path, q2, rest) := by
  unfold refPathPart
  have hnp : dotSlash.isPrefixOf (path ++ (q2 :: rest)) = false := by
    rw [show dotSlash = ['.', '/'] from by decide] at hnds ⊢
    cases path with
    | nil => exact absurd rfl hne
    | cons c p' =>
      cases p' with
      | nil =>
        have h2 : ('/' == q2) = false := beq_eq_false_iff_ne.mpr (quote_ne_slash hq2)
        simp [List.isPrefixOf, h2]
      | cons c2 p'' =>
        simp only [List.isPrefixOf] at hnds ⊢
        simpa using hnds
  rw [hnp]
  simp only [Bool.false_eq_true, if_false]
  rw [pathClose_run hne hnq hq2 rest]
  rfl

theorem refPathPart_dotslash {path' : Str} (hne : path' ≠ [])
    (hnq : ∀ c ∈ path', quoteCh c = false) {q2 : Char}
    (hq2 : quoteCh q2 = true) (rest : Str) :
    refPathPart (('.' :: '/' :: path') ++ (q2 :: rest)) =
      some (dotSlash, path', q2, rest) := by
  unfold refPathPart
  have hp : dotSlash.isPrefixOf (('.' :: '/' :: path') ++ (q2 :: rest)) = true := by
    rw [show dotSlash = ['.', '/'] from by decide]
    simp [List.isPrefixOf]
  rw [if_pos hp]
  have hdrop : (('.' :: '/' :: path') ++ (q2 :: rest)).drop 2 =
      path' ++ (q2 :: rest) := rfl
  rw [hdrop, pathClose_run hne hnq hq2 rest]

/-- A well-formed reference matches the reference regex at its start, with
capture 3 the path minus an optional leading `./`, the whole match being the
reference text itself, and the scan resuming right after it. -/
theorem tryMatchRef_render (r : RefPart) (hr : wfRef r = true) (rest : Str) :
    tryMatchRef (renderRef r ++ rest) =
      some (r.attr,
        (if dotSlash.isPrefixOf r.path then r.path.drop 2 else r.path : Str),
        renderRef r, rest) := by
  obtain ⟨hattr, hq1, hq2, hne, hnq, hnds⟩ := wfRef_spec hr
  have hshape : renderRef r ++ rest =
      r.attr ++ '=' :: r.q1 :: (r.path ++ (r.q2 :: rest)) := by
    unfold renderRef
    simp [List.append_assoc]
  have hmain : ∀ (A : Str), attrAlt (r.attr ++ '=' :: r.q1 :: (r.path ++ (r.q2 :: rest))) =
      some (A, r.q1 :: (r.path ++ (r.q2 :: rest))) → A = r.attr →
      tryMatchRef (renderRef r ++ rest) =
        some (r.attr,
          (if dotSlash.isPrefixOf r.path then r.path.drop 2 else r.path : Str),
          renderRef r, rest) := by
    intro A haa hA
    subst hA
    unfold tryMatchRef
    rw [hshape, haa]
    dsimp only
    rw [if_pos hq1]
    by_cases hds : dotSlash.isPrefixOf r.path = true
    · obtain ⟨path', hp'⟩ : ∃ path', r.path = '.' :: '/' :: path' := by
        rw [show dotSlash = ['.', '/'] from by decide] at hds
        cases hpath : r.path with
        | nil => rw [hpath] at hds; simp [List.isPrefixOf] at hds
        | cons c p' =>
          cases hp' : p' with
          | nil =>
            rw [hpath, hp'] at hds
            simp [List.isPrefixOf] at hds
          | cons c2 p'' =>
            rw [hpath, hp'] at hds
            simp only [List.isPrefixOf, Bool.and_eq_true, beq_iff_eq] at hds
            exact ⟨p'', by rw [hds.1.symm, hds.2.1.symm]⟩
      have hpne : path' ≠ [] := by
        intro h0
        rw [h0] at hp'
        exact hnds (by rw [hp']; decide)
      have hnq' : ∀ c ∈ path', quoteCh c = false := by
        intro c hc
        exact hnq c (by rw [hp']; simp [hc])
      rw [hp', refPathPart_dotslash hpne hnq' hq2 rest]
      dsimp only
      rw [if_pos (by rw [← hp']; exact hds)]
      have hmt : r.attr ++ '=' :: r.q1 :: (dotSlash ++ path' ++ [r.q2]) =
          renderRef r := by
        unfold renderRef
        rw [hp', show dotSlash = ['.', '/'] from by decide]
        simp
      rw [hmt]
      rfl
    · have hdsf : dotSlash.isPrefixOf r.path = false := by
        rw [Bool.eq_false_iff]
        exact hds
      rw [refPathPart_plain hne hnq hdsf hq2 rest]
      dsimp only
      rw [if_neg (by simp [hdsf])]
      have hmt : r.attr ++ '=' :: r.q1 :: ([] ++ r.path ++ [r.q2]) =
          renderRef r := by
        unfold renderRef
        simp
      rw [hmt]
  rcases hattr with ha | ha
  · refine hmain r.attr ?_ rfl
    rw [ha]
    exact attrAlt_href _
  · refine hmain r.attr ?_ rfl
    rw [ha]
    exact attrAlt_src _

/-- A rendered reference (with anything after it) starts with the first
letter of its attribute name. -/
theorem renderRef_head {r : RefPart} (h : wfRef r = true) (t : Str) :
    (∃ y, renderRef r ++ t = 'h' :: y) ∨ (∃ y, renderRef r ++ t = 's' :: y) := by
  obtain ⟨hattr, -⟩ := wfRef_spec h
  rcases hattr with ha | ha
  · left
    refine ⟨"ref".toList ++ '=' :: r.q1 :: (r.path ++ [r.q2]) ++ t, ?_⟩
    unfold renderRef
    rw [ha, show "href".toList = 'h' :: "ref".toList from by decide]
    simp
  · right
    refine ⟨"rc".toList ++ '=' :: r.q1 :: (r.path ++ [r.q2]) ++ t, ?_⟩
    unfold renderRef
    rw [ha, show "src".toList = 's' :: "rc".toList from by decide]
    simp

/-- The reference regex cannot start matching inside quote-free inert text
that is followed by nothing or by a well-formed reference: the quote required
right after `attr=` would be an inert (non-quote) character or the first
letter of the next reference's attribute name, and an `attr=` straddling the
boundary is impossible since no proper suffix of `href=`/`src=` starts with
`h` or `s`. -/
theorem tryMatchRef_seg_none (seg rest : Str) (hne : seg ≠ [])
    (hseg : segOk seg = true)
    (hrest : rest = [] ∨ ∃ (r : RefPart) (t : Str),
      rest = renderRef r ++ t ∧ wfRef r = true) :
    tryMatchRef (seg ++ rest) = none := by
  have hrh : rest = [] ∨ (∃ y, rest = 'h' :: y) ∨ (∃ y, rest = 's' :: y) := by
    rcases hrest with rfl | ⟨r, t, rfl, hw⟩
    · exact Or.inl rfl
    · rcases renderRef_head hw t with ⟨y, hy⟩ | ⟨y, hy⟩
      · exact Or.inr (Or.inl ⟨y, hy⟩)
      · exact Or.inr (Or.inr ⟨y, hy⟩)
  have hsegmem : ∀ c ∈ seg, quoteCh c = false := by
    intro c hc
    simpa using List.all_eq_true.mp hseg c hc
  unfold tryMatchRef
  cases haa : attrAlt (seg ++ rest) with
  | none => rfl
  | some pr =>
    obtain ⟨attr, r1⟩ := pr
    have key : ∃ A : Nat, 1 ≤ A ∧
        (∃ P : Str, P.length = A ∧ P.isPrefixOf (seg ++ rest) = true ∧
          (∀ k, k < A → 1 ≤ k →
            P[k]? ≠ some 'h' ∧ P[k]? ≠ some 's')) ∧
        r1 = (seg ++ rest).drop A := by
      unfold attrAlt at haa
      split at haa
      · rename_i hp5
        simp only [Option.some.injEq, Prod.mk.injEq] at haa
        exact ⟨5, by omega, ⟨"href=".toList, by decide, hp5, by decide⟩,
          haa.2.symm⟩
      · split at haa
        · rename_i hp4
          simp only [Option.some.injEq, Prod.mk.injEq] at haa
          exact ⟨4, by omega, ⟨"src=".toList, by decide, hp4, by decide⟩,
            haa.2.symm⟩
        · simp at haa
    obtain ⟨A, hA1, ⟨P, hPlen, hPpre, hPk⟩, hr1⟩ := key
    have hsegpos : 1 ≤ seg.length := List.length_pos.mpr hne
    rcases Nat.lt_trichotomy A seg.length with hAk | hAk | hAk
    · have hr1' : r1 = seg.drop A ++ rest := by
        rw [hr1, List.drop_append_of_le_length (le_of_lt hAk)]
      have hlen : (seg.drop A).length = seg.length - A := by simp
      cases hsd : seg.drop A with
      | nil =>
        rw [hsd] at hlen
        simp only [List.length_nil] at hlen
        omega
      | cons q1 w =>
        have hq1seg : q1 ∈ seg := List.mem_of_mem_drop (by rw [hsd]; simp)
        have hq1f : quoteCh q1 = false := hsegmem q1 hq1seg
        rw [hr1', hsd]
        simp [hq1f]
    · have hr1' : r1 = rest := by
        rw [hr1, hAk, List.drop_left]
      rcases hrh with rfl | ⟨y, hy⟩ | ⟨y, hy⟩
      · rw [hr1']
      · rw [hr1', hy]
        simp [show quoteCh 'h' = false from by decide]
      · rw [hr1', hy]
        simp [show quoteCh 's' = false from by decide]
    · exfalso
      rcases hrh with rfl | ⟨y, hy⟩ | ⟨y, hy⟩
      · rw [List.append_nil] at hPpre
        have := List.IsPrefix.length_le (List.isPrefixOf_iff_prefix.mp hPpre)
        omega
      · rw [hy] at hPpre
        have hpb := prefix_boundary (d := seg) (c := 'h') (t := y) hPpre
          (by omega)
        exact (hPk seg.length (by omega) hsegpos).1 hpb
      · rw [hy] at hPpre
        have hpb := prefix_boundary (d := seg) (c := 's') (t := y) hPpre
          (by omega)
        exact (hPk seg.length (by omega) hsegpos).2 hpb

/-- The rewrite copies inert text verbatim. -/
theorem rewriteRefs_seg (table : List (Str × Str)) : ∀ (seg : Str),
    segOk seg = true →
    ∀ (rest : Str), (rest = [] ∨ ∃ (r : RefPart) (t : Str),
      rest = renderRef r ++ t ∧ wfRef r = true) →
    rewriteRefs table (seg ++ rest) = seg ++ rewriteRefs table rest := by
  intro seg
  induction seg with
  | nil =>
    intro _ rest _
    rw [List.nil_append, List.nil_append]
  | cons c seg' ih =>
    intro hseg rest hrest
    have hseg' : segOk seg' = true := by
      unfold segOk at hseg ⊢
      simp only [List.all_cons, Bool.and_eq_true] at hseg
      exact hseg.2
    have h0 := tryMatchRef_seg_none (c :: seg') rest (by simp) hseg hrest
    rw [List.cons_append] at h0
    rw [List.cons_append, rewriteRefs_cons, h0]
    dsimp only
    rw [ih hseg' rest hrest]
    rfl

/-- The rewrite maps one reference to its rewritten form and continues after
it. -/
theorem rewriteRefs_ref (table : List (Str × Str)) (r : RefPart)
    (hr : wfRef r = true) (rest : Str) :
    rewriteRefs table (renderRef r ++ rest) =
      renderRef (rewrittenRef table r) ++ rewriteRefs table rest := by
  cases hE : renderRef r ++ rest with
  | nil =>
    exfalso
    have hlen := congrArg List.length hE
    unfold renderRef at hlen
    simp [List.length_append] at hlen
  | cons c s' =>
    rw [rewriteRefs_cons]
    rw [← hE]
    rw [tryMatchRef_render r hr rest]
    dsimp only
    unfold rewrittenRef claimKey
    cases hlk : lookupTable table
        (stripSlash (if dotSlash.isPrefixOf r.path then r.path.drop 2
          else r.path)) with
    | some url => rfl
    | none => rfl

/-- The rewrite of a canonical entry document is the same document with each
reference individually rewritten and all inert text untouched. -/
theorem rewriteRefs_docOf (table : List (Str × Str)) :
    ∀ (items : List (RefPart × Str)),
    (∀ p ∈ items, wfRef p.1 = true ∧ segOk p.2 = true) →
    ∀ (seg0 : Str), segOk seg0 = true →
    rewriteRefs table (docOf seg0 items) =
      docOf seg0 (rewriteItems table items) := by
  intro items
  induction items with
  | nil =>
    intro _ seg0 h0
    unfold docOf rewriteItems joinRefs
    simp only [List.map_nil]
    rw [rewriteRefs_seg table seg0 h0 [] (Or.inl rfl)]
    rfl
  | cons p t ih =>
    intro hwf seg0 h0
    obtain ⟨r, sep⟩ := p
    obtain ⟨hr, hsep⟩ := hwf (r, sep) (by simp)
    show rewriteRefs table (seg0 ++ (renderRef r ++ (sep ++ joinRefs t))) =
      seg0 ++ (renderRef (rewrittenRef table r) ++
        (sep ++ joinRefs (rewriteItems table t)))
    rw [rewriteRefs_seg table seg0 h0 _
      (Or.inr ⟨r, sep ++ joinRefs t, rfl, hr⟩)]
    rw [rewriteRefs_ref table r hr (sep ++ joinRefs t)]
    have hrec := ih (fun q hq => hwf q (by simp [hq])) sep hsep
    unfold docOf at hrec
    rw [hrec]

/-! ### Claim theorems -/

/-- The Scenario A input exactly as the claim states it (short files marker). -/
def scenarioA : Str :=
  ("### 4.1. Header Block\nHi\n### 4.2. Project Structure\nTree\n" ++
   "### 4.3. Code Files\n```html:index.html\n<h1>Hi</h1>\n```\n" ++
   "### 4.4. Notes\nDone").toList

/-- Scenario A with the files marker written in the long form the parser's
files-section regex actually requires. -/
def scenarioAFull : Str :=
  ("### 4.1. Header Block\nHi\n### 4.2. Project Structure\nTree\n" ++
   "### 4.3. Code Files (Full & Unabridged)\n```html:index.html\n<h1>Hi</h1>\n```\n" ++
   "### 4.4. Notes\nDone").toList

set_option maxRecDepth 100000

/-- Claim C1, counterexample: on the exact Scenario A input the files-section
regex (which requires the marker `### 4.3. Code Files (Full & Unabridged)`)
does not match, so the single-file fallback fires and the files list is not
the claimed one-element `index.html` list. -/
theorem c1_counterexample :
    (parseResponse scenarioA).header = "Hi".toList ∧
    (parseResponse scenarioA).struct = "Tree".toList ∧
    (parseResponse scenarioA).notes = "Done".toList ∧
    (parseResponse scenarioA).files =
      [⟨"code.js".toList, "javascript".toList,
        ":index.html\n<h1>Hi</h1>".toList⟩] ∧
    (parseResponse scenarioA).files ≠
      [⟨"index.html".toList, "html".toList, "<h1>Hi</h1>".toList⟩] := by
  refine ⟨by decide, by decide, by decide, by decide, by decide⟩

/-- Claim C1, amended: with the files marker written in full
(`### 4.3. Code Files (Full & Unabridged)`), `parseResponse` returns
header `Hi`, structure `Tree`, notes `Done`, and the one-element files list
`index.html`/`html`/`<h1>Hi</h1>`. -/
theorem c1_amended :
    parseResponse scenarioAFull =
      ⟨"Hi".toList, "Tree".toList, "Done".toList,
       [⟨"index.html".toList, "html".toList, "<h1>Hi</h1>".toList⟩]⟩ := by
  decide

/-- Claim C2: the sandbox permission set of the rendered preview frame.  The
attribute grants `allow-same-origin` in addition to `allow-scripts`, so the
frame is NOT restricted to script execution only: same-origin access to the
hosting page is granted, contradicting the stated policy.  (The claim is
taken as the intended policy; the attribute value is the code defect.) -/
theorem c2_sandbox_grants_same_origin :
    sandboxTokens = ["allow-scripts".toList, "allow-same-origin".toList] ∧
    "allow-same-origin".toList ∈ sandboxTokens ∧
    sandboxTokens ≠ ["allow-scripts".toList] := by
  refine ⟨by decide, by decide, by decide⟩

/-- Claim C3: whenever the files region yields no code block, the files list
of `parseResponse` is exactly the single fallback file
`code.js`/`javascript` holding the trimmed body of the first fenced block of
the whole raw text, and is empty when no fenced block exists anywhere. -/
theorem c3_fallback (text : Str) (h : filesFromRegion text = []) :
    (parseResponse text).files =
      match fallbackScan text with
      | some body =>
        [⟨"code.js".toList, "javascript".toList, trimStr body⟩]
      | none => [] := by
  unfold parseResponse
  simp only [h]
  cases fallbackScan text with
  | none => rfl
  | some body => rfl

/-- The Scenario B input: no files-section blocks, one generic fenced block
elsewhere. -/
def scenarioB : Str := "hello ```\nconsole.log(1)\n``` bye".toList

theorem c3_fallback_witness :
    filesFromRegion scenarioB = [] ∧
    (parseResponse scenarioB).files =
      [⟨"code.js".toList, "javascript".toList, "console.log(1)".toList⟩] :=
  ⟨by decide, (c3_fallback scenarioB (by decide)).trans (by decide)⟩

/-- Claim C4: for a raw text whose files section is a well-formed assembly of
N correctly tagged fenced blocks (separated by fence-free text, with the
notes marker not occurring inside the section), `parseResponse` produces
exactly those N `CodeFile`s in source order, with `lang` the captured
language token (`text` when it is empty), `name` the captured file-name token
(`untitled` when absent), and `content` the fenced body trimmed of outer
whitespace. -/
theorem c4_tagged_blocks (sep0 sec post : Str) (items : List (TaggedBlock × Str))
    (hne : items ≠ [])
    (hwf : ∀ p ∈ items, wfBlock p.1 = true ∧ hasSub ticks p.2 = false)
    (hsep0 : hasSub ticks sep0 = false)
    (hsec : trimStr sec = assembleBlocks sep0 items)
    (hfirst : ∀ q < sec.length,
      m44.isPrefixOf ((sec ++ (m44 ++ post)).drop q) = false) :
    (parseResponse (m43full ++ (sec ++ (m44 ++ post)))).files =
      items.map (fun p =>
        { name := p.1.nameTok.getD "untitled".toList
          lang := if p.1.langTok = [] then "text".toList else p.1.langTok
          content := trimStr p.1.body }) := by
  have hreg : filesRegion (m43full ++ (sec ++ (m44 ++ post))) =
      some (trimStr sec) := by
    unfold filesRegion
    rw [findSub_front (by decide)
      (List.isPrefixOf_iff_prefix.mpr (List.prefix_append _ _))]
    dsimp only
    rw [Nat.zero_add, List.drop_left]
    have hpref : m44.isPrefixOf ((sec ++ (m44 ++ post)).drop sec.length) = true := by
      rw [List.drop_left]
      exact List.isPrefixOf_iff_prefix.mpr (List.prefix_append _ _)
    rw [findSub_eq_some_of sec.length hpref hfirst]
    dsimp only
    rw [List.take_left]
  unfold parseResponse filesFromRegion
  rw [hreg]
  dsimp only
  rw [hsec, scanBlocks_assemble items hwf sep0 hsep0]
  rw [if_neg (by simpa using hne)]
  rfl

/-- The concrete files section for the C4 witness: two tagged blocks, the
second with no language or name token. -/
def c4Sec : Str :=
  "\n```html:index.html\n<h1>Hi</h1>\n```\n\n```\nx\n```\n".toList

def c4Items : List (TaggedBlock × Str) :=
  [(⟨"html".toList, some "index.html".toList, "<h1>Hi</h1>".toList⟩,
    "\n\n".toList),
   (⟨[], none, "x".toList⟩, [])]

theorem c4_witness :
    (parseResponse (m43full ++ (c4Sec ++ (m44 ++ "\nDone".toList)))).files =
      [⟨"index.html".toList, "html".toList, "<h1>Hi</h1>".toList⟩,
       ⟨"untitled".toList, "text".toList, "x".toList⟩] := by
  have h := c4_tagged_blocks [] c4Sec "\nDone".toList c4Items
    (by simp [c4Items]) (by decide) (by decide) (by decide) (by decide)
  exact h.trans (by decide)

theorem lookupTable_val_mem {table : List (Str × Str)} {k v : Str}
    (h : lookupTable table k = some v) : ∃ kv ∈ table, kv.2 = v := by
  unfold lookupTable at h
  cases hf : table.find? (fun e => e.1 = k) with
  | none =>
    rw [hf] at h
    simp at h
  | some kv =>
    rw [hf] at h
    simp only [Option.map_some'] at h
    exact ⟨kv, List.mem_of_find?_eq_some hf, by simpa using h⟩

/-- Rewriting preserves reference well-formedness when the table's stored
URIs are non-empty, quote-free and not the bare `./`. -/
theorem rewrittenRef_wf (table : List (Str × Str)) {r : RefPart}
    (hr : wfRef r = true)
    (htable : ∀ kv ∈ table, kv.2 ≠ [] ∧ kv.2.all (fun c => !quoteCh c) = true ∧
      kv.2 ≠ dotSlash) :
    wfRef (rewrittenRef table r) = true := by
  unfold rewrittenRef
  cases hlk : lookupTable table (claimKey r.path) with
  | none => exact hr
  | some url =>
    obtain ⟨kv, hmem, hv⟩ := lookupTable_val_mem hlk
    obtain ⟨hne, hnq, hnds⟩ := htable kv hmem
    obtain ⟨hattr, -, -, -, -, -⟩ := wfRef_spec hr
    subst hv
    unfold wfRef
    simp only [Bool.and_eq_true, Bool.or_eq_true, beq_iff_eq,
      Bool.not_eq_true']
    refine ⟨⟨⟨⟨⟨hattr, by decide⟩, by decide⟩, ?_⟩, hnq⟩, ?_⟩
    · cases hkv : kv.2 with
      | nil => exact absurd hkv hne
      | cons a t => rfl
    · simp only [beq_eq_false_iff_ne]
      exact hnds

/-- Rewriting one reference twice is the same as rewriting it once when no
stored URI is itself a key of the table. -/
theorem rewrittenRef_idem (table : List (Str × Str)) {r : RefPart}
    (htable4 : ∀ kv ∈ table, lookupTable table (claimKey kv.2) = none) :
    rewrittenRef table (rewrittenRef table r) = rewrittenRef table r := by
  cases hlk : lookupTable table (claimKey r.path) with
  | none =>
    have hin : rewrittenRef table r = r := by
      unfold rewrittenRef
      rw [hlk]
    rw [hin]
    exact hin
  | some url =>
    have hin : rewrittenRef table r = ⟨r.attr, '"', url, '"'⟩ := by
      unfold rewrittenRef
      rw [hlk]
    rw [hin]
    obtain ⟨kv, hmem, hv⟩ := lookupTable_val_mem hlk
    have hnone : lookupTable table (claimKey url) = none := hv ▸ htable4 kv hmem
    unfold rewrittenRef
    rw [show claimKey (RefPart.mk r.attr '"' url '"').path = claimKey url from rfl,
      hnone]

/-- Claim C7: on an entry document decomposed into quote-free inert text and
well-formed `href`/`src` references, the rewrite replaces exactly those
references whose path — after dropping an optional leading `./` and an
optional leading `/` — is a key of the asset table, substituting
`attr="url"`; every other reference and all inert text are left
character-for-character unchanged. -/
theorem c7_reference_rewrite (table : List (Str × Str)) (seg0 : Str)
    (items : List (RefPart × Str)) (hseg0 : segOk seg0 = true)
    (hitems : ∀ p ∈ items, wfRef p.1 = true ∧ segOk p.2 = true) :
    rewriteRefs table (docOf seg0 items) =
      seg0 ++ joinRefs (items.map (fun p =>
        ((match lookupTable table (claimKey p.1.path) with
          | some url => ({ attr := p.1.attr, q1 := '"', path := url, q2 := '"' } : RefPart)
          | none => p.1), p.2))) :=
  rewriteRefs_docOf table items hitems seg0 hseg0

def wTable : List (Str × Str) := [("app.js".toList, "blob:x/1".toList)]

def wItems : List (RefPart × Str) :=
  [(⟨"src".toList, '"', "./app.js".toList, '"'⟩, "></script><img ".toList),
   (⟨"src".toList, '"', "missing.js".toList, '"'⟩, ">".toList)]

theorem c7_witness :
    rewriteRefs wTable (docOf "<script ".toList wItems) =
      "<script src=\"blob:x/1\"></script><img src=\"missing.js\">".toList := by
  have h := c7_reference_rewrite wTable "<script ".toList wItems
    (by decide) (by decide)
  exact h.trans (by decide)

/-- Claim C9: the reference rewrite is idempotent for a fixed asset table
whose stored URIs are non-empty, quote-free, not the bare `./`, and never
themselves keys of the table (blob URIs contain `:`, which no parsed file
name can contain): a second application changes nothing. -/
theorem c9_rewrite_idempotent (table : List (Str × Str)) (seg0 : Str)
    (items : List (RefPart × Str)) (hseg0 : segOk seg0 = true)
    (hitems : ∀ p ∈ items, wfRef p.1 = true ∧ segOk p.2 = true)
    (htable : ∀ kv ∈ table, kv.2 ≠ [] ∧ kv.2.all (fun c => !quoteCh c) = true ∧
      kv.2 ≠ dotSlash ∧ lookupTable table (claimKey kv.2) = none) :
    rewriteRefs table (rewriteRefs table (docOf seg0 items)) =
      rewriteRefs table (docOf seg0 items) := by
  have hitems2 : ∀ p ∈ rewriteItems table items,
      wfRef p.1 = true ∧ segOk p.2 = true := by
    intro p hp
    unfold rewriteItems at hp
    simp only [List.mem_map] at hp
    obtain ⟨q, hq, rfl⟩ := hp
    obtain ⟨hr, hs⟩ := hitems q hq
    exact ⟨rewrittenRef_wf table hr
      (fun kv hkv => ⟨(htable kv hkv).1, (htable kv hkv).2.1, (htable kv hkv).2.2.1⟩), hs⟩
  rw [rewriteRefs_docOf table items hitems seg0 hseg0]
  rw [rewriteRefs_docOf table (rewriteItems table items) hitems2 seg0 hseg0]
  unfold docOf
  congr 1
  congr 1
  unfold rewriteItems
  rw [List.map_map]
  refine List.map_congr_left ?_
  intro p hp
  simp only [Function.comp]
  have := rewrittenRef_idem table (r := p.1)
    (fun kv hkv => (htable kv hkv).2.2.2)
  rw [this]

theorem c9_witness :
    rewriteRefs wTable (rewriteRefs wTable (docOf "<script ".toList wItems)) =
      rewriteRefs wTable (docOf "<script ".toList wItems) :=
  c9_rewrite_idempotent wTable "<script ".toList wItems
    (by decide) (by decide) (by decide)

/-- An input whose header slice carries surrounding whitespace, exhibiting
that the implementation trims region content. -/
def paddedHeaderText : Str :=
  ("### 4.1. Header Block\n  Hi  \n### 4.2. Project Structure\nT\n" ++
   "### 4.3. Code Files\nU").toList

/-- Claim C5, counterexample: the header region is not the raw text between
the two markers — the implementation returns it whitespace-trimmed. -/
theorem c5_counterexample :
    rawBetween m41 m42 paddedHeaderText = some "\n  Hi  \n".toList ∧
    (parseResponse paddedHeaderText).header = "Hi".toList ∧
    (parseResponse paddedHeaderText).header ≠
      (rawBetween m41 m42 paddedHeaderText).getD [] := by
  refine ⟨by decide, by decide, by decide⟩

/-- Claim C5, amended: for every raw text, each region is the
whitespace-TRIMMED text between the first occurrence of its own marker and
the first following occurrence of the next marker; the notes region runs to
the end of text; the files region (whose own marker is the long form) runs to
the end of text when the notes marker is absent, with only leading whitespace
removed; a region with a missing own or closing marker is empty (`none` for
the files region), and extraction is total — it never errors. -/
theorem c5_regions (text : Str) :
    (parseResponse text).header = ((rawBetween m41 m42 text).map trimStr).getD [] ∧
    (parseResponse text).struct = ((rawBetween m42 m43 text).map trimStr).getD [] ∧
    (parseResponse text).notes = ((rawAfter m44 text).map trimStr).getD [] ∧
    filesRegion text =
      (match rawBetween m43full m44 text with
       | some r => some (trimStr r)
       | none => (rawAfter m43full text).map trimL) := by
  refine ⟨?_, ?_, ?_, filesRegion_eq text⟩
  · show (sectionBetween m41 m42 text).getD [] = _
    rw [sectionBetween_eq]
  · show (sectionBetween m42 m43 text).getD [] = _
    rw [sectionBetween_eq]
  · show (sectionAfter m44 text).getD [] = _
    unfold sectionAfter rawAfter
    cases findSub m44 text with
    | none => rfl
    | some i => rfl

/-- Claim C6: a generation result that parses to an empty files list is a
surfaced error: the error modal opens, no output document is stored, and the
output column renders the idle placeholder — a zero-file document is never
handed to the preview layer. -/
theorem c6_empty_files_not_rendered (t : Str) (s : HomeState)
    (h : (parseResponse t).files = []) :
    (generateRun (some t) s).output = none ∧
    (generateRun (some t) s).showErrorModal = true ∧
    renderMain (generateRun (some t) s) = MainView.idleView := by
  unfold generateRun settleGeneration startGeneration renderMain
  simp [h]

theorem c6_witness :
    (parseResponse "hello".toList).files = [] ∧
    (generateRun (some "hello".toList)
        ⟨some ⟨[], [], [], []⟩, false, false⟩).output = none ∧
    (generateRun (some "hello".toList)
        ⟨some ⟨[], [], [], []⟩, false, false⟩).showErrorModal = true ∧
    renderMain (generateRun (some "hello".toList)
        ⟨some ⟨[], [], [], []⟩, false, false⟩) = MainView.idleView := by
  refine ⟨by decide, ?_⟩
  exact c6_empty_files_not_rendered "hello".toList
    ⟨some ⟨[], [], [], []⟩, false, false⟩ (by decide)

/-- Claim C8: with no file named exactly `index.html`, the preview effect
sets the (non-empty) placeholder message and materializes no blob resource. -/
theorem c8_missing_entry_placeholder (urls : Nat → Str) (files : List CodeFile)
    (h : ∀ f ∈ files, f.name ≠ indexName) :
    computePreview urls files = ⟨placeholderMsg, []⟩ ∧ placeholderMsg ≠ [] := by
  have hfind : files.find? (fun f => f.name = indexName) = none := by
    rw [List.find?_eq_none]
    intro x hx
    simpa using h x hx
  unfold computePreview
  rw [hfind]
  exact ⟨rfl, by decide⟩

theorem c8_witness :
    (∀ f ∈ [(⟨"style.css".toList, "css".toList, "x".toList⟩ : CodeFile)],
      f.name ≠ indexName) ∧
    computePreview (fun _ => [])
        [⟨"style.css".toList, "css".toList, "x".toList⟩] =
      ⟨placeholderMsg, []⟩ := by
  refine ⟨by decide, ?_⟩
  exact (c8_missing_entry_placeholder (fun _ => [])
    [⟨"style.css".toList, "css".toList, "x".toList⟩] (by decide)).1

/-- Claim C10: for a non-empty files list the initial code-view selection is
defined, and it is the first file named `index.html` when one exists,
otherwise the first file of the list. -/
theorem c10_initial_selection (files : List CodeFile) (h : files ≠ []) :
    ∃ f, initialSelected files = some f ∧
      ∃ pre post, files = pre ++ f :: post ∧
        ((f.name = indexName ∧ ∀ g ∈ pre, g.name ≠ indexName) ∨
         ((∀ g ∈ files, g.name ≠ indexName) ∧ pre = [])) := by
  match files, h with
  | f0 :: fs, _ =>
    cases hfind : (f0 :: fs).find? (fun f => f.name = indexName) with
    | none =>
      refine ⟨f0, ?_, [], fs, rfl, Or.inr ⟨?_, rfl⟩⟩
      · unfold initialSelected
        rw [hfind]
        rfl
      · rw [List.find?_eq_none] at hfind
        intro g hg
        simpa using hfind g hg
    | some f =>
      obtain ⟨pre, post, hl, hpa, hpre⟩ := find?_first hfind
      refine ⟨f, ?_, pre, post, hl, Or.inl ⟨by simpa using hpa, ?_⟩⟩
      · unfold initialSelected
        rw [hfind]
      · intro g hg
        simpa using hpre g hg

theorem c10_witness :
    ([(⟨"a.js".toList, "javascript".toList, "x".toList⟩ : CodeFile),
      ⟨"index.html".toList, "html".toList, "y".toList⟩] ≠ []) ∧
    ∃ f, initialSelected
        [⟨"a.js".toList, "javascript".toList, "x".toList⟩,
         ⟨"index.html".toList, "html".toList, "y".toList⟩] = some f ∧
      ∃ pre post,
        [(⟨"a.js".toList, "javascript".toList, "x".toList⟩ : CodeFile),
         ⟨"index.html".toList, "html".toList, "y".toList⟩] = pre ++ f :: post ∧
        ((f.name = indexName ∧ ∀ g ∈ pre, g.name ≠ indexName) ∨
         ((∀ g ∈ [(⟨"a.js".toList, "javascript".toList, "x".toList⟩ : CodeFile),
            ⟨"index.html".toList, "html".toList, "y".toList⟩],
            g.name ≠ indexName) ∧ pre = [])) := by
  refine ⟨by decide, ?_⟩
  exact c10_initial_selection _ (by decide)

end I2C
